import Mathlib

/-!
Verification of the rule-driven data-scrubbing engine (scrubber.go) of the
recorder library.  Go values of static type `any` are embedded as the
inductive `GoValue`; Go maps are embedded as association lists (Go map
iteration order is arbitrary, and every property proved here is stated via
key lookup, which is order-independent for the unique keys Go maps provide);
Go function values that may be nil (`FieldMatcher`, `ScrubFunc`,
`ScrubberOption`, compiled regular expressions) are embedded as `Option` of
a Lean function.  Where a byte-level or Unicode-table-exact model is not
needed by any claim (strings.ToLower, fmt.Sprint renderings of composite
values), the embedding keeps the structure of the code and documents the
simplification at the definition.
-/

namespace Recorder

/-- Models `unicode.IsSpace` on the code points this development needs
(the Latin-1 white space set; the exotic Unicode space classes are not
exercised by any claim). -/
def goIsSpace (c : Char) : Bool :=
  c = ' ' || c = '\t' || c = '\n' || c = Char.ofNat 11 || c = Char.ofNat 12 ||
    c = '\r' || c = Char.ofNat 0x85 || c = Char.ofNat 0xA0

/-- Models `bytes.TrimSpace` / `strings.TrimSpace`: drop white space from
both ends of the code-point sequence. -/
def goTrimSpaceChars (s : List Char) : List Char :=
  ((s.dropWhile goIsSpace).reverse.dropWhile goIsSpace).reverse

/-- `strings.TrimSpace` on a string. -/
def goTrimSpaceStr (s : String) : String :=
  String.mk (goTrimSpaceChars s.data)

/-- Models `strings.ToLower` (per-code-point lowering; sufficient for the
ASCII vocabulary the scrubber uses). -/
def goToLower (s : String) : String :=
  String.mk (s.data.map Char.toLower)

/-- Models `strings.Repeat`: the string concatenated with itself `n`
times. -/
def goRepeat (s : String) : Nat → String
  | 0 => ""
  | n + 1 => s ++ goRepeat s n

/-- Models `fmt.Sprintf("[%d]", i)`, the synthetic key/path segment used
for elements of string slices. -/
def goIndexSeg (i : Nat) : String :=
  "[" ++ Nat.repr i ++ "]"

/-- Embedding of the Go values of static type `any` that `scrubValue`
dispatches on: one constructor per `switch` case of `scrubValue`
(`map[string]any`, `map[string]string`, `map[string][]string`, `[]string`,
`[]any`) plus the leaf scalars produced by JSON decoding; `other` stands
for any further leaf value, carried by its `fmt.Sprint` rendering. -/
inductive GoValue where
  | str (s : String)
  | boolVal (b : Bool)
  | num (n : Int)
  | null
  | obj (entries : List (String × GoValue))
  | strMap (entries : List (String × String))
  | strSliceMap (entries : List (String × List String))
  | strList (xs : List String)
  | list (xs : List GoValue)
  | other (rendering : String)

/-- `FieldContext` of scrubber.go: path, final key, current value. -/
structure FieldContext where
  Path : List String
  Key : String
  Value : GoValue

/-- `FieldMatcher`; a Go variable of this function type may be nil, which
call sites embed as `Option FieldMatcher`. -/
abbrev FieldMatcher := FieldContext → Bool

/-- `ScrubFunc`. -/
abbrev ScrubFunc := FieldContext → GoValue

/-- `Rule`; the nilable function fields become `Option`. -/
structure Rule where
  Name : String
  Match : Option FieldMatcher
  Apply : Option ScrubFunc
  Continue : Bool := false

/-- `Scrubber`. -/
structure Scrubber where
  rules : List Rule
  defaultReplacement : String
  includeDefaults : Bool

/-- `ScrubberOption`; a nil option is `none` at the call site. -/
abbrev ScrubberOption := Scrubber → Scrubber

/-- Space-separated join used by the composite renderings of `goSprint`. -/
def goJoinSpace : List String → String
  | [] => ""
  | [x] => x
  | x :: rest => x ++ " " ++ goJoinSpace rest

mutual
/-- Models `fmt.Sprint` on an embedded value.  Leaf renderings follow Go
(`true`/`false`, decimal integers, `<nil>` for a nil `any`); composite
renderings follow the Go `map[...]`/`[...]` form but list entries in
embedding order rather than the sorted map-key order of Go — no claim depends
on the rendering of a composite value. -/
def goSprint : GoValue → String
  | .str s => s
  | .boolVal b => if b then "true" else "false"
  | .num n => n.repr
  | .null => "<nil>"
  | .obj entries => "map[" ++ goSprintObjEntries entries ++ "]"
  | .strMap entries =>
      "map[" ++ goJoinSpace (entries.map (fun kv => kv.1 ++ ":" ++ kv.2)) ++ "]"
  | .strSliceMap entries =>
      "map[" ++ goJoinSpace (entries.map
        (fun kv => kv.1 ++ ":[" ++ goJoinSpace kv.2 ++ "]")) ++ "]"
  | .strList xs => "[" ++ goJoinSpace xs ++ "]"
  | .list xs => "[" ++ goSprintListElems xs ++ "]"
  | .other rendering => rendering

/-- Renders `k1:v1 k2:v2 ...` for the entries of an object. -/
def goSprintObjEntries : List (String × GoValue) → String
  | [] => ""
  | [(k, v)] => k ++ ":" ++ goSprint v
  | (k, v) :: rest => k ++ ":" ++ goSprint v ++ " " ++ goSprintObjEntries rest

/-- Renders `v1 v2 ...` for the elements of a generic list. -/
def goSprintListElems : List GoValue → String
  | [] => ""
  | [v] => goSprint v
  | v :: rest => goSprint v ++ " " ++ goSprintListElems rest
end

/-- `toString` of scrubber.go: nil renders as the empty string, a string
as itself, anything else via `fmt.Sprint` (the `fmt.Stringer` case of the
source concerns host-language interface values that the `GoValue`
embedding carries as `other` with their rendering). -/
def toString : GoValue → String
  | .null => ""
  | .str s => s
  | v => goSprint v

/-- `toStringSlice` of scrubber.go.  `desiredLen` is the length of the
original slice (a Go `int`; non-negative at the single call site), so the
test `desiredLen <= 0` of the source becomes `= 0`. -/
def toStringSlice (value : GoValue) (desiredLen : Nat) : List String :=
  match value with
  | .null => []
  | .strList v => v.map id
  | .list v => v.map toString
  | .str v => if desiredLen = 0 then [v] else List.replicate desiredLen v
  | v =>
    let valueStr := toString v
    if desiredLen = 0 then [valueStr] else List.replicate desiredLen valueStr

/-- `MatchKeyInsensitive` of scrubber.go: normalize the candidate keys
(trim, drop empties, lower), then match the lowered context key against
the candidates. -/
def MatchKeyInsensitive (keys : List String) : FieldMatcher :=
  let normalized := keys.filterMap (fun key =>
    let trimmed := goTrimSpaceStr key
    if trimmed = "" then none else some (goToLower trimmed))
  fun ctx =>
    let key := goToLower ctx.Key
    normalized.any (fun candidate => key == candidate)

/-- `MatchKeyRegexp` of scrubber.go.  A compiled `*regexp.Regexp` is
embedded as `Option (String → Bool)`: `none` is a nil pointer, `some f`
a compiled expression whose `MatchString` is `f`. -/
def MatchKeyRegexp (re : Option (String → Bool)) : FieldMatcher :=
  fun ctx =>
    match re with
    | none => false
    | some f => f ctx.Key

/-- `MatchValueRegexp` of scrubber.go: nil expression or nil value never
matches; otherwise the expression is run on the rendering of the value. -/
def MatchValueRegexp (re : Option (String → Bool)) : FieldMatcher :=
  fun ctx =>
    match re, ctx.Value with
    | none, _ => false
    | some _, .null => false
    | some f, v => f (goSprint v)

/-- `ReplaceWith` of scrubber.go. -/
def ReplaceWith (replacement : String) : ScrubFunc :=
  fun _ => .str replacement

/-- `RemoveValue` of scrubber.go: returns the Go nil. -/
def RemoveValue : ScrubFunc :=
  fun _ => .null

/-- Wrap-around of 64-bit Go `int` arithmetic: the unique value congruent
to `n` mod `2 ^ 64` lying in `[-2 ^ 63, 2 ^ 63)` (the numerals are
`2 ^ 63` and `2 ^ 64`). -/
def goIntWrap (n : Int) : Int :=
  (n + 9223372036854775808) % 18446744073709551616 - 9223372036854775808

/-- `MaskString` of scrubber.go.  The rune and the keep counts are clamped
exactly as in the source; the returned function renders the value, splits
it into code points and rebuilds it with the interior masked.  Go `int`
is 64 bits wide and `+`/`-` wrap, so each arithmetic step of the source
wraps through `goIntWrap` (`length` itself needs no wrap: a Go string
holds fewer than `2 ^ 63` runes).  A Go runtime panic — slicing
`runes[:keepStart]` past the end, a negative `strings.Repeat` count, or
a negative start index in `runes[length-keepEnd:]` — is modelled as
`none`, checked in the order the source hits it. -/
def MaskString (mask : Char) (keepStart keepEnd : Int) :
    FieldContext → Option GoValue :=
  let mask := if mask = Char.ofNat 0 then '*' else mask
  let keepStart := if keepStart < 0 then 0 else keepStart
  let keepEnd := if keepEnd < 0 then 0 else keepEnd
  let maskStr := String.mk [mask]
  fun ctx =>
    match ctx.Value with
    | .null => some .null
    | v =>
      let value := goSprint v
      if value = "" then some (.str value)
      else
        let runes := value.data
        let length := runes.length
        if length = 0 then some (.str value)
        else if (length : Int) ≤ goIntWrap (keepStart + keepEnd) then
          some (.str (goRepeat maskStr length))
        else if 0 < keepStart ∧ (length : Int) < keepStart then none
        else
          let startPart :=
            if 0 < keepStart then String.mk (runes.take keepStart.toNat) else ""
          let maskedCount := goIntWrap (goIntWrap ((length : Int) - keepStart) - keepEnd)
          if maskedCount < 0 then none
          else
            let tailStart := goIntWrap ((length : Int) - keepEnd)
            if 0 < keepEnd ∧ tailStart < 0 then none
            else
              let endPart :=
                if 0 < keepEnd then String.mk (runes.drop tailStart.toNat) else ""
              some (.str (startPart ++ goRepeat maskStr maskedCount.toNat ++ endPart))

/-- The fixed sensitive-key vocabulary passed to `MatchKeyInsensitive`
inside `defaultSensitiveRules`. -/
def sensitiveKeyVocabulary : List String :=
  ["password", "pass", "passwd", "secret", "token", "auth", "authorization",
   "api_key", "apikey", "access_token", "refresh_token", "session", "cookie",
   "set-cookie"]

/-- `defaultSensitiveRules` of scrubber.go: the single built-in rule. -/
def defaultSensitiveRules (replacement : String) : List Rule :=
  [{ Name := "default-sensitive",
     Match := some (MatchKeyInsensitive sensitiveKeyVocabulary),
     Apply := some (ReplaceWith replacement),
     Continue := false }]

/-- `WithRules` of scrubber.go: append the given rules (no-op on an empty
list). -/
def WithRules (rules : List Rule) : ScrubberOption :=
  fun s => if rules.isEmpty then s else { s with rules := s.rules ++ rules }

/-- `WithoutDefaultRules` of scrubber.go. -/
def WithoutDefaultRules : ScrubberOption :=
  fun s => { s with includeDefaults := false }

/-- `WithDefaultReplacement` of scrubber.go (no-op on the empty string). -/
def WithDefaultReplacement (replacement : String) : ScrubberOption :=
  fun s => if replacement = "" then s else { s with defaultReplacement := replacement }

/-- `NewScrubber` of scrubber.go: start from the defaults, run the non-nil
options in order, then — after the options have run — append the built-in
rules when `includeDefaults` is still set. -/
def NewScrubber (opts : List (Option ScrubberOption)) : Scrubber :=
  let s := opts.foldl (fun s opt =>
    match opt with
    | some f => f s
    | none => s)
    { rules := [], defaultReplacement := "[REDACTED]", includeDefaults := true }
  if s.includeDefaults then
    { s with rules := s.rules ++ defaultSensitiveRules s.defaultReplacement }
  else s

/-- The loop body of `applyRules` of scrubber.go, one recursive step per
iteration: a rule whose matcher is non-nil and rejects the current value
is skipped; a rule with a nil transform is skipped; otherwise the rule
fires, the working value is replaced, and the loop stops unless the
`Continue` flag of the rule is set. -/
def runRules (p : List String) (k : String) : List Rule → GoValue → Bool → GoValue × Bool
  | [], current, matched => (current, matched)
  | rule :: rest, current, matched =>
    if (match rule.Match with
        | some matcher => !(matcher ⟨p, k, current⟩)
        | none => false) then
      runRules p k rest current matched
    else
      match rule.Apply with
      | none => runRules p k rest current matched
      | some apply =>
        let current := apply ⟨p, k, current⟩
        if rule.Continue then runRules p k rest current true else (current, true)

/-- `applyRules` of scrubber.go: run the loop from the value of the context
with no match recorded; report the final working value only when some
rule matched (the source returns `(nil, false)` otherwise). -/
def applyRules (s : Scrubber) (ctx : FieldContext) : Option GoValue :=
  let res := runRules ctx.Path ctx.Key s.rules ctx.Value false
  if res.2 then some res.1 else none

/-- In the source, the `map[string]string`, `map[string][]string` and
`[]string` branches of `scrubValue` recurse on values of static type
`string`; `scrubValue` on a string takes its default (leaf) branch and
returns the value unchanged.  This helper is that specialization, kept
separate so those branches need not be mutually recursive with
`scrubValue` (see `scrubValue_str`, which proves the two agree). -/
def scrubStringLeaf (_s : Scrubber) (val : String) (_path : List String) : GoValue :=
  .str val

/-- The `map[string]string` branch of `scrubValue`: per entry, extend the
path with the key, run the rules, and either coerce the replacement to a
string or keep the (leaf-traversed) original. -/
def scrubStrMapEntries (s : Scrubber) : List (String × String) → List String → List (String × String)
  | [], _ => []
  | (k, val) :: rest, path =>
    let currentPath := path ++ [k]
    (match applyRules s ⟨currentPath, k, .str val⟩ with
     | some replaced => (k, toString replaced)
     | none => (k, toString (scrubStringLeaf s val currentPath))) ::
      scrubStrMapEntries s rest path

/-- The per-element loop of the `map[string][]string` branch: elements get
a bracketed-index path segment and are leaf-traversed (the source runs no
rules per element in this branch). -/
def scrubStrSliceItems (s : Scrubber) : List String → List String → Nat → List String
  | [], _, _ => []
  | item :: rest, currentPath, i =>
    let elementPath := currentPath ++ [goIndexSeg i]
    toString (scrubStringLeaf s item elementPath) ::
      scrubStrSliceItems s rest currentPath (i + 1)

/-- The `map[string][]string` branch of `scrubValue`: per key, run the
rules on the whole slice; on a match coerce the replacement back to a
string slice of the original element count, otherwise rebuild the slice
element by element. -/
def scrubStrSliceMapEntries (s : Scrubber) :
    List (String × List String) → List String → List (String × List String)
  | [], _ => []
  | (k, vals) :: rest, path =>
    let currentPath := path ++ [k]
    (match applyRules s ⟨currentPath, k, .strList vals⟩ with
     | some replaced => (k, toStringSlice replaced vals.length)
     | none => (k, scrubStrSliceItems s vals currentPath 0)) ::
      scrubStrSliceMapEntries s rest path

/-- The `[]string` branch of `scrubValue`: every element is rule-evaluated
under a synthetic bracketed-index key. -/
def scrubStrListElems (s : Scrubber) : List String → List String → Nat → List String
  | [], _, _ => []
  | val :: rest, path, i =>
    let elementPath := path ++ [goIndexSeg i]
    (match applyRules s ⟨elementPath, goIndexSeg i, .str val⟩ with
     | some replaced => toString replaced
     | none => toString (scrubStringLeaf s val elementPath)) ::
      scrubStrListElems s rest path (i + 1)

mutual
/-- `scrubValue` of scrubber.go: dispatch on the shape of the value; containers
are rebuilt entry by entry, everything else is a leaf returned
unchanged. -/
def scrubValue (s : Scrubber) : GoValue → List String → GoValue
  | .obj entries, path => .obj (scrubObjEntries s entries path)
  | .strMap entries, path => .strMap (scrubStrMapEntries s entries path)
  | .strSliceMap entries, path => .strSliceMap (scrubStrSliceMapEntries s entries path)
  | .strList xs, path => .strList (scrubStrListElems s xs path 0)
  | .list xs, path => .list (scrubListElems s xs path)
  | v, _ => v

/-- The `map[string]any` branch of `scrubValue`: per entry, extend the
path, run the rules; a match installs the replacement without further
recursion, otherwise the child is traversed at its path. -/
def scrubObjEntries (s : Scrubber) : List (String × GoValue) → List String → List (String × GoValue)
  | [], _ => []
  | (k, val) :: rest, path =>
    let currentPath := path ++ [k]
    (match applyRules s ⟨currentPath, k, val⟩ with
     | some replaced => (k, replaced)
     | none => (k, scrubValue s val currentPath)) :: scrubObjEntries s rest path

/-- The `[]any` branch of `scrubValue`: every element is traversed at the
path of the list itself; no per-element rule evaluation, no index segment. -/
def scrubListElems (s : Scrubber) : List GoValue → List String → List GoValue
  | [], _ => []
  | val :: rest, path => scrubValue s val path :: scrubListElems s rest path
end

/-- `Scrub` of scrubber.go: a nil receiver passes the value through
unchanged, otherwise the traversal starts with an empty path. -/
def Scrub (s : Option Scrubber) (value : GoValue) : GoValue :=
  match s with
  | none => value
  | some sc => scrubValue sc value []

/-- `ScrubJSON` of scrubber.go.  The JSON codec lives in the Go standard
library, outside this repository, so it is abstracted: `dec` stands for
`json.Unmarshal` (either a decoded tree or a decode diagnostic) and `enc`
for `json.Marshal`.  The byte slice is embedded as its code-point
sequence; the pair returned mirrors the Go `([]byte, error)`, where `none`
is a nil slice / nil error. -/
def ScrubJSON (dec : List Char → Except String GoValue)
    (enc : GoValue → Except String (List Char))
    (s : Option Scrubber) (data : List Char) :
    Option (List Char) × Option String :=
  match s with
  | none => (some data, none)
  | some sc =>
    let trimmed := goTrimSpaceChars data
    if trimmed.isEmpty then (some data, none)
    else
      match dec trimmed with
      | .error e => (none, some ("scrubber: decode json: " ++ e))
      | .ok payload =>
        match enc (scrubValue sc payload []) with
        | .error e => (none, some ("scrubber: encode json: " ++ e))
        | .ok result => (some result, none)

/-- Contents-level model of `cloneTags` (base_recorder.go): an empty or
nil input yields the Go nil map (empty contents), otherwise an entry-by-entry
copy.  Freshness of the copy is modelled separately by `cloneTagsH`. -/
def cloneTags (tags : List (String × String)) : List (String × String) :=
  if tags.isEmpty then [] else tags.map (fun kv => kv)

/-- Contents-level model of `ScrubStringMap` of scrubber.go: clone, return
the clone for a nil receiver or an empty clone, otherwise promote every
entry to a generic value, run the object traversal, and coerce every
resulting value back to its rendering.  (The traversal always returns an
object here; the final fallback mirrors the failed type
assertion.) -/
def ScrubStringMapFn (s : Option Scrubber) (data : List (String × String)) :
    List (String × String) :=
  let cloned := cloneTags data
  match s with
  | none => cloned
  | some sc =>
    if cloned.isEmpty then cloned
    else
      let generic := GoValue.obj (cloned.map (fun kv => (kv.1, GoValue.str kv.2)))
      match scrubValue sc generic [] with
      | .obj result => result.map (fun kv => (kv.1, toString kv.2))
      | _ => cloned

/-- A heap of allocated `map[string]string` objects, for the aliasing
claims: a cell per allocated map, identified by its index. -/
structure MapHeap where
  cells : List (List (String × String))

/-- A reference to a string map: `none` is the Go nil map. -/
abbrev MapRef := Option Nat

/-- Reading a map through a reference: a nil map reads as empty. -/
def MapHeap.get (h : MapHeap) (r : MapRef) : List (String × String) :=
  match r with
  | none => []
  | some i => h.cells.getD i []

/-- Allocating a fresh map with the given contents. -/
def MapHeap.alloc (h : MapHeap) (m : List (String × String)) : MapRef × MapHeap :=
  (some h.cells.length, ⟨h.cells ++ [m]⟩)

/-- Mutating the map object behind a reference (a nil map cannot be
written). -/
def MapHeap.write (h : MapHeap) (r : MapRef) (m : List (String × String)) : MapHeap :=
  match r with
  | none => h
  | some i => ⟨h.cells.set i m⟩

/-- Heap-level `cloneTags`: an empty input returns the Go nil map without
allocating; otherwise a fresh map object is allocated and filled with a
copy of the input entries. -/
def cloneTagsH (h : MapHeap) (r : MapRef) : MapRef × MapHeap :=
  let tags := h.get r
  if tags.isEmpty then (none, h)
  else h.alloc (tags.map (fun kv => kv))

/-- Heap-level `ScrubStringMap`: clone first; for a nil receiver or an
empty clone return the clone reference; otherwise compute the scrubbed
contents (exactly as `ScrubStringMapFn`) and store them in a second fresh
map object.  (The intermediate `map[string]any` is a differently-typed
object and is not tracked in this string-map heap.) -/
def ScrubStringMapH (s : Option Scrubber) (h : MapHeap) (r : MapRef) :
    MapRef × MapHeap :=
  let res := cloneTagsH h r
  match s with
  | none => res
  | some sc =>
    let cloned := res.2.get res.1
    if cloned.isEmpty then res
    else
      let generic := GoValue.obj (cloned.map (fun kv => (kv.1, GoValue.str kv.2)))
      match scrubValue sc generic [] with
      | .obj result => res.2.alloc (result.map (fun kv => (kv.1, toString kv.2)))
      | _ => res

/-- The key test of the built-in rule, as a predicate on the key alone (the
matcher reads nothing else from the context). -/
def isSensitiveKey (k : String) : Bool :=
  MatchKeyInsensitive sensitiveKeyVocabulary ⟨[], k, .null⟩

mutual
/-- Whether a value contains, at any depth reachable by the traversal
under a named key, a key the built-in rule matches.  (Bracketed index
segments of string lists are never in the vocabulary, so string lists
never contribute.) -/
def containsSensitiveKey : GoValue → Bool
  | .obj entries => objEntriesContainSensitive entries
  | .strMap entries => entries.any (fun kv => isSensitiveKey kv.1)
  | .strSliceMap entries => entries.any (fun kv => isSensitiveKey kv.1)
  | .list xs => listContainsSensitive xs
  | _ => false

/-- `containsSensitiveKey` over the entries of an object. -/
def objEntriesContainSensitive : List (String × GoValue) → Bool
  | [] => false
  | (k, v) :: rest =>
    isSensitiveKey k || containsSensitiveKey v || objEntriesContainSensitive rest

/-- `containsSensitiveKey` over the elements of a generic list. -/
def listContainsSensitive : List GoValue → Bool
  | [] => false
  | v :: rest => containsSensitiveKey v || listContainsSensitive rest
end

/-- The chained rule R1 of the rule-chaining property: matches key `a`,
replaces with `x`, lets evaluation continue. -/
def ruleR1 : Rule :=
  { Name := "R1",
    Match := some (fun ctx => ctx.Key == "a"),
    Apply := some (fun _ => .str "x"),
    Continue := true }

/-- The terminal rule R2 of the rule-chaining property: matches key `a`
with working value `x`, replaces with `y`, stops evaluation. -/
def ruleR2 : Rule :=
  { Name := "R2",
    Match := some (fun ctx =>
      ctx.Key == "a" &&
        (match ctx.Value with
         | .str s => s == "x"
         | _ => false)),
    Apply := some (fun _ => .str "y"),
    Continue := false }

/-- R1 with its chain flag cleared. -/
def ruleR1NoChain : Rule :=
  { ruleR1 with Continue := false }

/-- A caller-supplied rule used to exhibit the order in which
`NewScrubber` places caller rules relative to the built-in rule. -/
def customRuleC1 : Rule :=
  { Name := "custom-rule",
    Match := some (fun ctx => ctx.Key == "zzz"),
    Apply := some (ReplaceWith "X"),
    Continue := false }

/-- A rule whose matcher is the Go nil function. -/
def nilMatcherRule : Rule :=
  { Name := "nil-matcher",
    Match := none,
    Apply := some (ReplaceWith "Z"),
    Continue := false }

/-- Induction principle for the embedded value tree: the motive may assume
itself for every entry value of an object and every element of a generic
list (the only recursive positions). -/
theorem GoValue.inductionOn (motive : GoValue → Prop)
    (hstr : ∀ s, motive (.str s))
    (hbool : ∀ b, motive (.boolVal b))
    (hnum : ∀ n, motive (.num n))
    (hnull : motive .null)
    (hobj : ∀ entries, (∀ kv ∈ entries, motive (Prod.snd kv)) → motive (.obj entries))
    (hstrMap : ∀ entries, motive (.strMap entries))
    (hstrSliceMap : ∀ entries, motive (.strSliceMap entries))
    (hstrList : ∀ xs, motive (.strList xs))
    (hlist : ∀ xs, (∀ x ∈ xs, motive x) → motive (.list xs))
    (hother : ∀ r, motive (.other r)) :
    ∀ v, motive v
  | .str s => hstr s
  | .boolVal b => hbool b
  | .num n => hnum n
  | .null => hnull
  | .obj entries => hobj entries (fun kv _hkv =>
      GoValue.inductionOn motive hstr hbool hnum hnull hobj hstrMap hstrSliceMap
        hstrList hlist hother kv.2)
  | .strMap entries => hstrMap entries
  | .strSliceMap entries => hstrSliceMap entries
  | .strList xs => hstrList xs
  | .list xs => hlist xs (fun x _hx =>
      GoValue.inductionOn motive hstr hbool hnum hnull hobj hstrMap hstrSliceMap
        hstrList hlist hother x)
  | .other r => hother r
termination_by v => sizeOf v
decreasing_by
  · have h1 := List.sizeOf_lt_of_mem _hkv
    have h2 : sizeOf kv.2 < sizeOf kv := by
      obtain ⟨a, b⟩ := kv
      simp
    simp only [GoValue.obj.sizeOf_spec]
    omega
  · have h1 := List.sizeOf_lt_of_mem _hx
    simp only [GoValue.list.sizeOf_spec]
    omega

/-- On a string value the traversal takes its leaf branch, which is what
`scrubStringLeaf` inlines. -/
theorem scrubValue_str (s : Scrubber) (v : String) (p : List String) :
    scrubValue s (.str v) p = scrubStringLeaf s v p := rfl

/-- The built-in matcher reads only the key of the context. -/
theorem matchKeyInsensitive_vocab_eval (p : List String) (k : String) (v : GoValue) :
    MatchKeyInsensitive sensitiveKeyVocabulary ⟨p, k, v⟩ = isSensitiveKey k := rfl

/-- Rule evaluation under exactly the built-in rule list: a sensitive key
is replaced by the configured replacement, anything else does not
match. -/
theorem applyRules_default (s : Scrubber) (rep : String)
    (h : s.rules = defaultSensitiveRules rep) (ctx : FieldContext) :
    applyRules s ctx =
      if isSensitiveKey ctx.Key then some (.str rep) else none := by
  obtain ⟨path, key, value⟩ := ctx
  simp only [applyRules, h, defaultSensitiveRules, runRules,
    matchKeyInsensitive_vocab_eval]
  cases hk : isSensitiveKey key <;> simp [hk, ReplaceWith]

/-- String inequality from differing first code points. -/
theorem string_beq_false_of_head (s t : String)
    (h : s.data.head? ≠ t.data.head?) : (s == t) = false := by
  rw [beq_eq_false_iff_ne]
  intro he
  exact h (by rw [he])

/-- The lowered bracketed index segment starts with the bracket. -/
theorem goToLower_goIndexSeg_head (i : Nat) :
    (goToLower (goIndexSeg i)).data.head? = some '[' := by
  simp only [goToLower, goIndexSeg, String.data_append]
  simp

/-- A bracketed index segment is never in the sensitive vocabulary: the
synthetic keys of string-list elements do not trigger the built-in
rule. -/
theorem goIndexSeg_not_sensitive (i : Nat) :
    isSensitiveKey (goIndexSeg i) = false := by
  show ((goToLower (goIndexSeg i) == "password") ||
      ((goToLower (goIndexSeg i) == "pass") ||
      ((goToLower (goIndexSeg i) == "passwd") ||
      ((goToLower (goIndexSeg i) == "secret") ||
      ((goToLower (goIndexSeg i) == "token") ||
      ((goToLower (goIndexSeg i) == "auth") ||
      ((goToLower (goIndexSeg i) == "authorization") ||
      ((goToLower (goIndexSeg i) == "api_key") ||
      ((goToLower (goIndexSeg i) == "apikey") ||
      ((goToLower (goIndexSeg i) == "access_token") ||
      ((goToLower (goIndexSeg i) == "refresh_token") ||
      ((goToLower (goIndexSeg i) == "session") ||
      ((goToLower (goIndexSeg i) == "cookie") ||
      (goToLower (goIndexSeg i) == "set-cookie")))))))))))))) = false
  have hh := goToLower_goIndexSeg_head i
  simp only [Bool.or_eq_false_iff]
  refine ⟨?_, ?_, ?_, ?_, ?_, ?_, ?_, ?_, ?_, ?_, ?_, ?_, ?_, ?_⟩ <;>
    exact string_beq_false_of_head _ _ (by rw [hh]; decide)

/-- Unpacking `objEntriesContainSensitive = false` to the individual
entries. -/
theorem objEntriesContainSensitive_false (entries : List (String × GoValue)) :
    objEntriesContainSensitive entries = false →
    ∀ kv ∈ entries, isSensitiveKey kv.1 = false ∧ containsSensitiveKey kv.2 = false := by
  induction entries with
  | nil => intro _ kv hkv; cases hkv
  | cons kv0 rest ihr =>
    obtain ⟨k, v⟩ := kv0
    intro hclean kv hkv
    simp only [objEntriesContainSensitive, Bool.or_eq_false_iff] at hclean
    obtain ⟨⟨hk, hv⟩, hrest⟩ := hclean
    rw [List.mem_cons] at hkv
    rcases hkv with rfl | hkv
    · exact ⟨hk, hv⟩
    · exact ihr hrest kv hkv

/-- Unpacking `listContainsSensitive = false` to the individual
elements. -/
theorem listContainsSensitive_false (xs : List GoValue) :
    listContainsSensitive xs = false →
    ∀ x ∈ xs, containsSensitiveKey x = false := by
  induction xs with
  | nil => intro _ x hx; cases hx
  | cons x0 rest ihr =>
    intro hclean x hx
    simp only [listContainsSensitive, Bool.or_eq_false_iff] at hclean
    obtain ⟨hx0, hrest⟩ := hclean
    rw [List.mem_cons] at hx
    rcases hx with rfl | hx
    · exact hx0
    · exact ihr hrest x hx

/-- The string-list-map element loop never changes an element: it runs no
rules and every element is a string leaf. -/
theorem scrubStrSliceItems_id (s : Scrubber) :
    ∀ (vals currentPath : List String) (i : Nat),
      scrubStrSliceItems s vals currentPath i = vals := by
  intro vals
  induction vals with
  | nil => intro currentPath i; rfl
  | cons item rest ihr =>
    intro currentPath i
    simp only [scrubStrSliceItems, ihr]
    rfl

/-- Under exactly the built-in rule list, the `[]string` branch never
changes an element: its synthetic bracketed keys are not in the
vocabulary and its elements are string leaves. -/
theorem scrubStrListElems_default_id (s : Scrubber) (rep : String)
    (h : s.rules = defaultSensitiveRules rep) :
    ∀ (xs p : List String) (i : Nat), scrubStrListElems s xs p i = xs := by
  intro xs
  induction xs with
  | nil => intro p i; rfl
  | cons val rest ihr =>
    intro p i
    simp only [scrubStrListElems, applyRules_default s rep h,
      goIndexSeg_not_sensitive, Bool.false_eq_true, if_false, ihr]
    rfl

/-- Object entries all of whose keys are non-sensitive and whose values
the traversal fixes are left unchanged by the object branch. -/
theorem scrubObjEntries_clean (s : Scrubber) (rep : String)
    (h : s.rules = defaultSensitiveRules rep) :
    ∀ (entries : List (String × GoValue)) (p : List String),
      (∀ kv ∈ entries,
        isSensitiveKey kv.1 = false ∧ ∀ p', scrubValue s kv.2 p' = kv.2) →
      scrubObjEntries s entries p = entries := by
  intro entries
  induction entries with
  | nil => intro p _; rfl
  | cons kv rest ihr =>
    intro p hmem
    obtain ⟨k, val⟩ := kv
    obtain ⟨hk, hval⟩ := hmem (k, val) (by simp)
    simp only [scrubObjEntries, applyRules_default s rep h, hk,
      Bool.false_eq_true, if_false]
    rw [hval, ihr p (fun kv hkv => hmem kv (by simp [hkv]))]

/-- String-map entries with non-sensitive keys are left unchanged. -/
theorem scrubStrMapEntries_clean (s : Scrubber) (rep : String)
    (h : s.rules = defaultSensitiveRules rep) :
    ∀ (entries : List (String × String)) (p : List String),
      (∀ kv ∈ entries, isSensitiveKey kv.1 = false) →
      scrubStrMapEntries s entries p = entries := by
  intro entries
  induction entries with
  | nil => intro p _; rfl
  | cons kv rest ihr =>
    intro p hmem
    obtain ⟨k, val⟩ := kv
    have hk := hmem (k, val) (by simp)
    simp only [scrubStrMapEntries, applyRules_default s rep h, hk,
      Bool.false_eq_true, if_false]
    rw [ihr p (fun kv hkv => hmem kv (by simp [hkv]))]
    rfl

/-- String-list-map entries with non-sensitive keys are left unchanged. -/
theorem scrubStrSliceMapEntries_clean (s : Scrubber) (rep : String)
    (h : s.rules = defaultSensitiveRules rep) :
    ∀ (entries : List (String × List String)) (p : List String),
      (∀ kv ∈ entries, isSensitiveKey kv.1 = false) →
      scrubStrSliceMapEntries s entries p = entries := by
  intro entries
  induction entries with
  | nil => intro p _; rfl
  | cons kv rest ihr =>
    intro p hmem
    obtain ⟨k, vals⟩ := kv
    have hk := hmem (k, vals) (by simp)
    simp only [scrubStrSliceMapEntries, applyRules_default s rep h, hk,
      Bool.false_eq_true, if_false, scrubStrSliceItems_id]
    rw [ihr p (fun kv hkv => hmem kv (by simp [hkv]))]

/-- Generic-list elements the traversal fixes are left unchanged. -/
theorem scrubListElems_congr (s : Scrubber) :
    ∀ (xs : List GoValue) (p : List String),
      (∀ x ∈ xs, scrubValue s x p = x) →
      scrubListElems s xs p = xs := by
  intro xs
  induction xs with
  | nil => intro p _; rfl
  | cons x rest ihr =>
    intro p hmem
    simp only [scrubListElems, hmem x (by simp)]
    rw [ihr p (fun x hx => hmem x (by simp [hx]))]

/-- A value containing no sensitive key anywhere is a fixed point of the
traversal under exactly the built-in rule list. -/
theorem scrubValue_clean_id (s : Scrubber) (rep : String)
    (h : s.rules = defaultSensitiveRules rep) :
    ∀ v, containsSensitiveKey v = false → ∀ p, scrubValue s v p = v := by
  intro v
  induction v using GoValue.inductionOn with
  | hobj entries ih =>
    intro hclean p
    simp only [containsSensitiveKey] at hclean
    have hmem := objEntriesContainSensitive_false entries hclean
    simp only [scrubValue]
    rw [scrubObjEntries_clean s rep h entries p (fun kv hkv =>
      ⟨(hmem kv hkv).1, fun p' => ih kv hkv (hmem kv hkv).2 p'⟩)]
  | hstrMap entries =>
    intro hclean p
    simp only [containsSensitiveKey, List.any_eq_false] at hclean
    simp only [scrubValue]
    rw [scrubStrMapEntries_clean s rep h entries p (fun kv hkv => by
      have := hclean kv hkv
      simpa using this)]
  | hstrSliceMap entries =>
    intro hclean p
    simp only [containsSensitiveKey, List.any_eq_false] at hclean
    simp only [scrubValue]
    rw [scrubStrSliceMapEntries_clean s rep h entries p (fun kv hkv => by
      have := hclean kv hkv
      simpa using this)]
  | hstrList xs =>
    intro _ p
    simp only [scrubValue]
    rw [scrubStrListElems_default_id s rep h]
  | hlist xs ih =>
    intro hclean p
    simp only [containsSensitiveKey] at hclean
    have hmem := listContainsSensitive_false xs hclean
    simp only [scrubValue]
    rw [scrubListElems_congr s xs p (fun x hx => ih x hx (hmem x hx) p)]
  | hstr s' => intro _ _; rfl
  | hbool b => intro _ _; rfl
  | hnum n => intro _ _; rfl
  | hnull => intro _ _; rfl
  | hother r => intro _ _; rfl

/-- Re-coercing the built-in replacement string to a slice of the length
just produced reproduces the same slice. -/
theorem toStringSlice_str_idem (v : String) (n : Nat) :
    toStringSlice (.str v) (toStringSlice (.str v) n).length =
      toStringSlice (.str v) n := by
  cases n with
  | zero => simp [toStringSlice]
  | succ m => simp [toStringSlice]

/-- The object branch under exactly the built-in rule list is idempotent,
given idempotence of the traversal on each entry value. -/
theorem scrubObjEntries_default_idem (s : Scrubber) (rep : String)
    (h : s.rules = defaultSensitiveRules rep) :
    ∀ (entries : List (String × GoValue)) (p : List String),
      (∀ kv ∈ entries, ∀ p',
        scrubValue s (scrubValue s kv.2 p') p' = scrubValue s kv.2 p') →
      scrubObjEntries s (scrubObjEntries s entries p) p =
        scrubObjEntries s entries p := by
  intro entries
  induction entries with
  | nil => intro p _; rfl
  | cons kv rest ihr =>
    intro p hmem
    obtain ⟨k, val⟩ := kv
    have hrest := ihr p (fun kv hkv => hmem kv (by simp [hkv]))
    cases hk : isSensitiveKey k with
    | true =>
      simp only [scrubObjEntries, applyRules_default s rep h, hk, if_true, hrest]
    | false =>
      simp only [scrubObjEntries, applyRules_default s rep h, hk,
        Bool.false_eq_true, if_false, hrest]
      rw [hmem (k, val) (by simp) (p ++ [k])]

/-- The string-map branch under exactly the built-in rule list is
idempotent. -/
theorem scrubStrMapEntries_default_idem (s : Scrubber) (rep : String)
    (h : s.rules = defaultSensitiveRules rep) :
    ∀ (entries : List (String × String)) (p : List String),
      scrubStrMapEntries s (scrubStrMapEntries s entries p) p =
        scrubStrMapEntries s entries p := by
  intro entries
  induction entries with
  | nil => intro p; rfl
  | cons kv rest ihr =>
    intro p
    obtain ⟨k, val⟩ := kv
    cases hk : isSensitiveKey k with
    | true =>
      simp only [scrubStrMapEntries, applyRules_default s rep h, hk, if_true, ihr]
    | false =>
      simp only [scrubStrMapEntries, applyRules_default s rep h, hk,
        Bool.false_eq_true, if_false, ihr, scrubStringLeaf, toString]

/-- The string-list-map branch under exactly the built-in rule list is
idempotent. -/
theorem scrubStrSliceMapEntries_default_idem (s : Scrubber) (rep : String)
    (h : s.rules = defaultSensitiveRules rep) :
    ∀ (entries : List (String × List String)) (p : List String),
      scrubStrSliceMapEntries s (scrubStrSliceMapEntries s entries p) p =
        scrubStrSliceMapEntries s entries p := by
  intro entries
  induction entries with
  | nil => intro p; rfl
  | cons kv rest ihr =>
    intro p
    obtain ⟨k, vals⟩ := kv
    cases hk : isSensitiveKey k with
    | true =>
      simp only [scrubStrSliceMapEntries, applyRules_default s rep h, hk,
        if_true, ihr, toStringSlice_str_idem]
    | false =>
      simp only [scrubStrSliceMapEntries, applyRules_default s rep h, hk,
        Bool.false_eq_true, if_false, ihr, scrubStrSliceItems_id]

/-- The generic-list branch is idempotent given idempotence on each
element. -/
theorem scrubListElems_idem_of_members (s : Scrubber) :
    ∀ (xs : List GoValue) (p : List String),
      (∀ x ∈ xs, scrubValue s (scrubValue s x p) p = scrubValue s x p) →
      scrubListElems s (scrubListElems s xs p) p = scrubListElems s xs p := by
  intro xs
  induction xs with
  | nil => intro p _; rfl
  | cons x rest ihr =>
    intro p hmem
    simp only [scrubListElems, hmem x (by simp)]
    rw [ihr p (fun x hx => hmem x (by simp [hx]))]

/-- Under exactly the built-in rule list the traversal is idempotent on
every value: keys are never renamed, a replaced field carries the
replacement string, and the built-in rule maps that string back to
itself. -/
theorem scrubValue_default_idem (s : Scrubber) (rep : String)
    (h : s.rules = defaultSensitiveRules rep) :
    ∀ (v : GoValue) (p : List String),
      scrubValue s (scrubValue s v p) p = scrubValue s v p := by
  intro v
  induction v using GoValue.inductionOn with
  | hobj entries ih =>
    intro p
    simp only [scrubValue]
    rw [scrubObjEntries_default_idem s rep h entries p (fun kv hkv p' => ih kv hkv p')]
  | hstrMap entries =>
    intro p
    simp only [scrubValue]
    rw [scrubStrMapEntries_default_idem s rep h entries p]
  | hstrSliceMap entries =>
    intro p
    simp only [scrubValue]
    rw [scrubStrSliceMapEntries_default_idem s rep h entries p]
  | hstrList xs =>
    intro p
    simp only [scrubValue]
    rw [scrubStrListElems_default_id s rep h, scrubStrListElems_default_id s rep h]
  | hlist xs ih =>
    intro p
    simp only [scrubValue]
    rw [scrubListElems_idem_of_members s xs p (fun x hx => ih x hx p)]
  | hstr s' => intro p; rfl
  | hbool b => intro p; rfl
  | hnum n => intro p; rfl
  | hnull => intro p; rfl
  | hother r => intro p; rfl

/-- `List.lookup` unfolded one step. -/
theorem lookup_cons {β : Type} (k k0 : String) (v0 : β) (rest : List (String × β)) :
    List.lookup k ((k0, v0) :: rest) =
      if k == k0 then some v0 else List.lookup k rest := by
  cases h : k == k0 <;> simp [List.lookup, h]

/-- `List.lookup` through a value-only transformation of the entries. -/
theorem lookup_map_snd {β γ : Type} (f : β → γ) (k : String) :
    ∀ l : List (String × β),
      List.lookup k (l.map (fun kv => (kv.1, f kv.2))) = (List.lookup k l).map f := by
  intro l
  induction l with
  | nil => rfl
  | cons kv rest ihr =>
    obtain ⟨k0, v0⟩ := kv
    simp only [List.map_cons, lookup_cons]
    cases h : k == k0 <;> simp [h, ihr]

/-- Looking a key up after the object branch: the entry holds the rule
replacement when the rules matched, and the recursive traversal of the
original value otherwise. -/
theorem lookup_scrubObjEntries (s : Scrubber) (k : String) (v : GoValue) :
    ∀ (entries : List (String × GoValue)) (p : List String),
      List.lookup k entries = some v →
      List.lookup k (scrubObjEntries s entries p) =
        some (match applyRules s ⟨p ++ [k], k, v⟩ with
              | some replaced => replaced
              | none => scrubValue s v (p ++ [k])) := by
  intro entries
  induction entries with
  | nil => intro p hl; cases hl
  | cons kv rest ihr =>
    intro p hl
    obtain ⟨k0, v0⟩ := kv
    rw [lookup_cons] at hl
    cases hbeq : k == k0 with
    | true =>
      rw [if_pos hbeq] at hl
      obtain rfl := Option.some_injective _ hl
      obtain rfl : k = k0 := eq_of_beq hbeq
      simp only [scrubObjEntries]
      cases happ : applyRules s ⟨p ++ [k], k, v0⟩ <;>
        rw [lookup_cons, if_pos hbeq]
    | false =>
      rw [if_neg (by simp [hbeq])] at hl
      simp only [scrubObjEntries]
      cases happ : applyRules s ⟨p ++ [k0], k0, v0⟩ <;>
        rw [lookup_cons, if_neg (by simp [hbeq])] <;>
        exact ihr p hl

/-- Looking a key up after the string-map branch: the entry holds the
string coercion of the rule replacement when the rules matched, and is
unchanged otherwise. -/
theorem lookup_scrubStrMapEntries (s : Scrubber) (k v : String) :
    ∀ (entries : List (String × String)) (p : List String),
      List.lookup k entries = some v →
      List.lookup k (scrubStrMapEntries s entries p) =
        some (match applyRules s ⟨p ++ [k], k, .str v⟩ with
              | some replaced => toString replaced
              | none => v) := by
  intro entries
  induction entries with
  | nil => intro p hl; cases hl
  | cons kv rest ihr =>
    intro p hl
    obtain ⟨k0, v0⟩ := kv
    rw [lookup_cons] at hl
    cases hbeq : k == k0 with
    | true =>
      rw [if_pos hbeq] at hl
      obtain rfl := Option.some_injective _ hl
      obtain rfl : k = k0 := eq_of_beq hbeq
      simp only [scrubStrMapEntries]
      cases happ : applyRules s ⟨p ++ [k], k, .str v0⟩ <;>
        first
        | (rw [lookup_cons, if_pos hbeq]; rfl)
        | rw [lookup_cons, if_pos hbeq]
    | false =>
      rw [if_neg (by simp [hbeq])] at hl
      simp only [scrubStrMapEntries]
      cases happ : applyRules s ⟨p ++ [k0], k0, .str v0⟩ <;>
        rw [lookup_cons, if_neg (by simp [hbeq])] <;>
        exact ihr p hl

/-- The string-map branch never adds or removes keys. -/
theorem scrubStrMapEntries_keys (s : Scrubber) :
    ∀ (entries : List (String × String)) (p : List String),
      (scrubStrMapEntries s entries p).map Prod.fst = entries.map Prod.fst := by
  intro entries
  induction entries with
  | nil => intro p; rfl
  | cons kv rest ihr =>
    intro p
    obtain ⟨k, val⟩ := kv
    simp only [scrubStrMapEntries, List.map_cons, ihr]
    cases applyRules s ⟨p ++ [k], k, .str val⟩ <;> rfl

/-- At the contents level `cloneTags` is the identity (the source returns
a nil map for empty input and a copy otherwise; both have the input
entries). -/
theorem cloneTags_eq (data : List (String × String)) : cloneTags data = data := by
  cases data with
  | nil => rfl
  | cons kv rest => simp [cloneTags]

/-- The generic-list branch is an elementwise map of the traversal. -/
theorem scrubListElems_eq_map (s : Scrubber) :
    ∀ (xs : List GoValue) (p : List String),
      scrubListElems s xs p = xs.map (fun v => scrubValue s v p) := by
  intro xs
  induction xs with
  | nil => intro p; rfl
  | cons x rest ihr => intro p; simp only [scrubListElems, List.map_cons, ihr]

/-- Concatenating strings is concatenating their code points. -/
theorem string_mk_append (a b : List Char) :
    String.mk a ++ String.mk b = String.mk (a ++ b) := rfl

/-- Repeating a one-code-point string. -/
theorem goRepeat_singleton (c : Char) :
    ∀ n : Nat, goRepeat (String.mk [c]) n = String.mk (List.replicate n c) := by
  intro n
  induction n with
  | zero => rfl
  | succ m ihm =>
    rw [goRepeat, ihm, string_mk_append]
    rfl

/-- Writing through one reference does not change the view through a
different one. -/
theorem MapHeap.get_write_ne (h : MapHeap) (i j : Nat) (m : List (String × String))
    (hij : i ≠ j) : (h.write (some i) m).get (some j) = h.get (some j) := by
  simp only [MapHeap.write, MapHeap.get]
  by_cases hj : j < h.cells.length
  · rw [List.getD_eq_getElem _ _ (by simpa using hj), List.getD_eq_getElem _ _ hj]
    exact List.getElem_set_ne (h := hij) ..
  · rw [List.getD_eq_default _ _ (by simpa using Nat.le_of_not_lt hj),
      List.getD_eq_default _ _ (Nat.le_of_not_lt hj)]

/-- Allocation does not change the view through an existing reference. -/
theorem MapHeap.get_alloc_lt (h : MapHeap) (m : List (String × String)) (i : Nat)
    (hi : i < h.cells.length) : (h.alloc m).2.get (some i) = h.get (some i) := by
  simp only [MapHeap.alloc, MapHeap.get]
  exact List.getD_append _ _ _ _ hi

/-- The freshly allocated cell holds exactly the stored contents. -/
theorem MapHeap.get_alloc_self (h : MapHeap) (m : List (String × String)) :
    (h.alloc m).2.get (h.alloc m).1 = m := by
  simp only [MapHeap.alloc, MapHeap.get]
  rw [List.getD_append_right _ _ _ _ (Nat.le_refl _), Nat.sub_self]
  rfl

/-- Folding `WithRules` options appends the rule lists in order. -/
theorem foldl_some_withRules :
    ∀ (rss : List (List Rule)) (s0 : Scrubber),
      ((rss.map (fun rs => some (WithRules rs))).foldl (fun s opt =>
        match opt with
        | some f => f s
        | none => s) s0) =
      { s0 with rules := s0.rules ++ rss.flatten } := by
  intro rss
  induction rss with
  | nil =>
    intro s0
    simp only [List.map_nil, List.foldl_nil, List.flatten_nil, List.append_nil]
  | cons rs rest ihr =>
    intro s0
    simp only [List.map_cons, List.foldl_cons]
    rw [ihr]
    by_cases hrs : rs.isEmpty
    · obtain rfl : rs = [] := List.isEmpty_iff.mp hrs
      simp [WithRules]
    · simp [WithRules, hrs, List.append_assoc]

/-- Claim C1, counterexample: constructing a scrubber with one
caller-supplied rule and defaults enabled puts the caller rule first and
the built-in rule last, so the built-in rule is not the first element of
the list. -/
theorem newScrubber_builtin_not_first :
    (NewScrubber [some (WithRules [customRuleC1])]).rules.map Rule.Name =
      ["custom-rule", "default-sensitive"] ∧
    (NewScrubber [some (WithRules [customRuleC1])]).rules.head?.map Rule.Name ≠
      some "default-sensitive" := by
  exact ⟨rfl, by decide⟩

/-- Claim C1, amended: for every Scrubber built by `NewScrubber` with
`includeDefaults` left true and caller-supplied rules given via
`WithRules` options, the rule list is the caller-supplied rules in their
given order followed by the single built-in sensitive-key rule as its
last element. -/
theorem newScrubber_rule_order (rss : List (List Rule)) :
    (NewScrubber (rss.map (fun rs => some (WithRules rs)))).rules =
      rss.flatten ++ defaultSensitiveRules "[REDACTED]" ∧
    (defaultSensitiveRules "[REDACTED]").length = 1 := by
  constructor
  · unfold NewScrubber
    rw [foldl_some_withRules]
    simp
  · rfl

/-- Claim C3: under the built-in rule set (which is exactly what a
default-configured `NewScrubber` carries), every entry of an object whose
key is in the sensitive vocabulary — matched case-insensitively, at any
nesting depth, i.e. for every path `p` at which the traversal can reach
the object — is replaced by the replacement string, and every sibling
entry whose own key is not sensitive and whose subtree contains no
sensitive key is left unchanged. -/
theorem default_rules_redact_sensitive_keys :
    (NewScrubber []).rules = defaultSensitiveRules "[REDACTED]" ∧
    (∀ k ∈ sensitiveKeyVocabulary, isSensitiveKey k = true) ∧
    (∀ (s : Scrubber) (entries : List (String × GoValue)),
      Scrub (some s) (.obj entries) = .obj (scrubObjEntries s entries []) ∧
      ∀ p, scrubValue s (.obj entries) p = .obj (scrubObjEntries s entries p)) ∧
    (∀ (s : Scrubber) (rep : String), s.rules = defaultSensitiveRules rep →
      ∀ (entries : List (String × GoValue)) (p : List String) (k : String) (v : GoValue),
        isSensitiveKey k = true → List.lookup k entries = some v →
        List.lookup k (scrubObjEntries s entries p) = some (.str rep)) ∧
    (∀ (s : Scrubber) (rep : String), s.rules = defaultSensitiveRules rep →
      ∀ (entries : List (String × GoValue)) (p : List String) (k : String) (v : GoValue),
        isSensitiveKey k = false → containsSensitiveKey v = false →
        List.lookup k entries = some v →
        List.lookup k (scrubObjEntries s entries p) = some v) := by
  refine ⟨rfl, by decide, fun s entries => ⟨rfl, fun p => rfl⟩, ?_, ?_⟩
  · intro s rep hs entries p k v hsens hl
    rw [lookup_scrubObjEntries s k v entries p hl, applyRules_default s rep hs]
    simp [hsens]
  · intro s rep hs entries p k v hsens hclean hl
    rw [lookup_scrubObjEntries s k v entries p hl, applyRules_default s rep hs]
    simp only [hsens, Bool.false_eq_true, if_false]
    rw [scrubValue_clean_id s rep hs v hclean]

/-- Witness for C3: the specification example — `password` at the top
level and `token` one level down (under path `profile`) become
`[REDACTED]` (also when spelled `PassWord`), while the sibling `name`
keeps its value. -/
theorem default_rules_redact_sensitive_keys_witness :
    List.lookup "password"
      (scrubObjEntries (NewScrubber [])
        [("password", .str "secret"),
         ("profile", .obj [("token", .str "abc123"), ("name", .str "john")])] []) =
      some (.str "[REDACTED]") ∧
    List.lookup "token"
      (scrubObjEntries (NewScrubber [])
        [("token", .str "abc123"), ("name", .str "john")] ["profile"]) =
      some (.str "[REDACTED]") ∧
    List.lookup "name"
      (scrubObjEntries (NewScrubber [])
        [("token", .str "abc123"), ("name", .str "john")] ["profile"]) =
      some (.str "john") ∧
    List.lookup "PassWord" (scrubObjEntries (NewScrubber []) [("PassWord", .str "s")] []) =
      some (.str "[REDACTED]") := by
  refine ⟨?_, ?_, ?_, ?_⟩
  · exact default_rules_redact_sensitive_keys.2.2.2.1 (NewScrubber []) "[REDACTED]" rfl
      _ [] "password" (.str "secret") rfl rfl
  · exact default_rules_redact_sensitive_keys.2.2.2.1 (NewScrubber []) "[REDACTED]" rfl
      _ ["profile"] "token" (.str "abc123") rfl rfl
  · exact default_rules_redact_sensitive_keys.2.2.2.2 (NewScrubber []) "[REDACTED]" rfl
      _ ["profile"] "name" (.str "john") rfl rfl rfl
  · exact default_rules_redact_sensitive_keys.2.2.2.1 (NewScrubber []) "[REDACTED]" rfl
      _ [] "PassWord" (.str "s") rfl rfl

/-- Claim C4: rule evaluation proceeds in list order over the working
value — a matching rule with a transform and a cleared chain flag stops
evaluation with its output; with the chain flag set, evaluation continues
with later rules seeing the transformed value; a rejected rule is
skipped.  In particular, with R1 (chain, key `a`, to `x`) before R2
(no chain, key `a` with value `x`, to `y`) a field `a` ends as `y`, and
with the chain flag of R1 cleared it ends as `x`. -/
theorem rule_chaining_order :
    (∀ (p : List String) (k : String) (cur : GoValue) (m : Bool) (rest : List Rule)
        (name : String) (mf : FieldMatcher) (f : ScrubFunc),
      mf ⟨p, k, cur⟩ = true →
      runRules p k (Rule.mk name (some mf) (some f) false :: rest) cur m =
        (f ⟨p, k, cur⟩, true)) ∧
    (∀ (p : List String) (k : String) (cur : GoValue) (m : Bool) (rest : List Rule)
        (name : String) (mf : FieldMatcher) (f : ScrubFunc),
      mf ⟨p, k, cur⟩ = true →
      runRules p k (Rule.mk name (some mf) (some f) true :: rest) cur m =
        runRules p k rest (f ⟨p, k, cur⟩) true) ∧
    (∀ (p : List String) (k : String) (cur : GoValue) (m : Bool) (rest : List Rule)
        (name : String) (mf : FieldMatcher) (ap : Option ScrubFunc) (c : Bool),
      mf ⟨p, k, cur⟩ = false →
      runRules p k (Rule.mk name (some mf) ap c :: rest) cur m =
        runRules p k rest cur m) ∧
    Scrub (some ⟨[ruleR1, ruleR2], "[REDACTED]", true⟩) (.obj [("a", .str "v")]) =
      .obj [("a", .str "y")] ∧
    Scrub (some ⟨[ruleR1NoChain, ruleR2], "[REDACTED]", true⟩) (.obj [("a", .str "v")]) =
      .obj [("a", .str "x")] := by
  refine ⟨?_, ?_, ?_, rfl, rfl⟩
  · intro p k cur m rest name mf f hm
    simp [runRules, hm]
  · intro p k cur m rest name mf f hm
    simp [runRules, hm]
  · intro p k cur m rest name mf ap c hm
    simp [runRules, hm]

/-- Witness for C4: the non-chaining head rule applied at a concrete
context stops with its own output. -/
theorem rule_chaining_order_witness :
    runRules [] "a"
      [Rule.mk "w" (some (fun ctx => ctx.Key == "a"))
        (some (fun _ => GoValue.str "x")) false]
      (GoValue.str "v") false = (GoValue.str "x", true) := by
  exact rule_chaining_order.1 [] "a" (GoValue.str "v") false [] "w"
    (fun ctx => ctx.Key == "a") (fun _ => GoValue.str "x") rfl

/-- Claim C7, counterexample: a rule whose matcher is nil and whose
transform is set does fire — it records a match and applies its
transform — contradicting "treated as never matching". -/
theorem nil_matcher_fires :
    applyRules ⟨[nilMatcherRule], "[REDACTED]", true⟩ ⟨[], "k", .str "v"⟩ =
      some (.str "Z") ∧
    Scrub (some ⟨[nilMatcherRule], "[REDACTED]", true⟩) (.obj [("k", .str "v")]) =
      .obj [("k", .str "Z")] := ⟨rfl, rfl⟩

/-- Claim C7, amended: a rule with a nil matcher is treated as matching
every context (it fires whenever its transform is non-nil); a rule with a
nil transform is skipped without recording a match; a nil Scrubber
receiver passes every input through unchanged; and key/value
regular-expression matchers built from a nil compiled expression return
false for every context. -/
theorem nil_handling_semantics :
    (∀ (p : List String) (k : String) (cur : GoValue) (m : Bool) (rest : List Rule)
        (name : String) (f : ScrubFunc) (c : Bool),
      runRules p k (Rule.mk name none (some f) c :: rest) cur m =
        if c then runRules p k rest (f ⟨p, k, cur⟩) true
        else (f ⟨p, k, cur⟩, true)) ∧
    (∀ (p : List String) (k : String) (cur : GoValue) (m : Bool) (rest : List Rule)
        (name : String) (mo : Option FieldMatcher) (c : Bool),
      runRules p k (Rule.mk name mo none c :: rest) cur m =
        runRules p k rest cur m) ∧
    (∀ v, Scrub none v = v) ∧
    (∀ ctx, MatchKeyRegexp none ctx = false) ∧
    (∀ ctx, MatchValueRegexp none ctx = false) := by
  refine ⟨?_, ?_, fun v => rfl, fun ctx => rfl, ?_⟩
  · intro p k cur m rest name f c
    cases c <;> simp [runRules]
  · intro p k cur m rest name mo c
    cases mo with
    | none => simp [runRules]
    | some mf => cases hm : mf ⟨p, k, cur⟩ <;> simp [runRules, hm]
  · intro ctx
    obtain ⟨p, k, v⟩ := ctx
    cases v <;> rfl

/-- Claim C8: the `[]any` branch traverses every element at the path of
the list itself — no per-element rule evaluation and no bracketed index
segment — and the output list has the length of the input. -/
theorem list_branch_same_path_same_length (s : Scrubber) (xs : List GoValue)
    (p : List String) :
    scrubValue s (.list xs) p = .list (xs.map (fun v => scrubValue s v p)) ∧
    (xs.map (fun v => scrubValue s v p)).length = xs.length := by
  constructor
  · simp only [scrubValue]
    rw [scrubListElems_eq_map]
  · simp

/-- Claim C9: a default-configured scrubber is idempotent on every
value — in particular on every input whose first pass introduces no new
matchable keys (the rule set never renames a key, so this covers all
inputs). -/
theorem scrub_default_idempotent (v : GoValue) :
    Scrub (some (NewScrubber [])) (Scrub (some (NewScrubber [])) v) =
      Scrub (some (NewScrubber [])) v := by
  simp only [Scrub]
  exact scrubValue_default_idem (NewScrubber []) "[REDACTED]" rfl v []

/-- Claim C10: `RemoveValue` returns the nil marker; the string coercion
renders nil as the empty string; the string-map branch never adds or
removes keys; and an entry of a flat string map at which rule evaluation
produced the nil marker — via the traversal branch or via
`ScrubStringMap` — keeps its key, with the empty string as its value. -/
theorem removeValue_string_map_keeps_key :
    (∀ ctx, RemoveValue ctx = GoValue.null) ∧
    toString GoValue.null = "" ∧
    (∀ (s : Scrubber) (entries : List (String × String)) (p : List String),
      (scrubStrMapEntries s entries p).map Prod.fst = entries.map Prod.fst) ∧
    (∀ (s : Scrubber) (entries : List (String × String)) (p : List String)
        (k v : String),
      List.lookup k entries = some v →
      applyRules s ⟨p ++ [k], k, .str v⟩ = some GoValue.null →
      List.lookup k (scrubStrMapEntries s entries p) = some "") ∧
    (∀ (s : Scrubber) (data : List (String × String)) (k v : String),
      List.lookup k data = some v →
      applyRules s ⟨[k], k, .str v⟩ = some GoValue.null →
      List.lookup k (ScrubStringMapFn (some s) data) = some "") := by
  refine ⟨fun _ => rfl, rfl, scrubStrMapEntries_keys, ?_, ?_⟩
  · intro s entries p k v hl happ
    rw [lookup_scrubStrMapEntries s k v entries p hl, happ]
    rfl
  · intro s data k v hl happ
    have hemp : data.isEmpty = false := by
      cases data with
      | nil => cases hl
      | cons kv rest => rfl
    simp only [ScrubStringMapFn, cloneTags_eq]
    rw [if_neg (by simp [hemp])]
    simp only [scrubValue]
    rw [lookup_map_snd]
    have hpl : List.lookup k (data.map (fun kv => (kv.1, GoValue.str kv.2))) =
        some (.str v) := by
      rw [lookup_map_snd, hl]
      rfl
    rw [lookup_scrubObjEntries s k (.str v) _ [] hpl]
    simp only [List.nil_append] at happ ⊢
    rw [happ]
    rfl

/-- Witness for C10: a concrete removal rule applied through
`ScrubStringMap` keeps the matched key with an empty value. -/
theorem removeValue_string_map_keeps_key_witness :
    List.lookup "card"
      (ScrubStringMapFn
        (some ⟨[Rule.mk "rm" (some (fun ctx => ctx.Key == "card"))
          (some RemoveValue) false], "[REDACTED]", false⟩)
        [("card", "4111"), ("other", "ok")]) = some "" := by
  exact removeValue_string_map_keeps_key.2.2.2.2 _ _ "card" "4111" rfl rfl

/-- The empty code-point list is the empty string. -/
theorem string_mk_nil : String.mk ([] : List Char) = "" := rfl

/-- A string is the string of its code points. -/
theorem string_mk_data (v : String) : String.mk v.data = v := by
  cases v
  rfl

/-- Assembling the kept prefix, the mask run and the kept suffix equals
the single code-point list of the claim, also when a kept part is empty. -/
theorem mask_build (mask : Char) (a b : Nat) (l : List Char) :
    (if 0 < (a : Int) then String.mk (l.take a) else "") ++
      goRepeat (String.mk [mask]) (l.length - a - b) ++
      (if 0 < (b : Int) then String.mk (l.drop (l.length - b)) else "") =
    String.mk (l.take a ++ List.replicate (l.length - a - b) mask ++
      l.drop (l.length - b)) := by
  have ha : (if 0 < (a : Int) then String.mk (l.take a) else "") =
      String.mk (l.take a) := by
    by_cases h : 0 < (a : Int)
    · rw [if_pos h]
    · obtain rfl : a = 0 := by omega
      rw [if_neg h, List.take_zero]
  have hb : (if 0 < (b : Int) then String.mk (l.drop (l.length - b)) else "") =
      String.mk (l.drop (l.length - b)) := by
    by_cases h : 0 < (b : Int)
    · rw [if_pos h]
    · obtain rfl : b = 0 := by omega
      rw [if_neg h, Nat.sub_zero, List.drop_length]
  rw [ha, hb, goRepeat_singleton, string_mk_append, string_mk_append]

/-- Claim C5, counterexample: at `keepStart = keepEnd = 2 ^ 62` (both
non-negative, so clamping is the identity, and their mathematical sum
exceeds the length 10) the claim predicts ten mask characters, but the
64-bit sum in the source wraps to `-2 ^ 63`, the full-mask guard fails,
and slicing `runes[:keepStart]` panics — the call does not return the
masked string. -/
theorem maskString_overflow_panics :
    MaskString (Char.ofNat 42) 4611686018427387904 4611686018427387904
        ⟨[], "card", .str "1234567890"⟩ = none ∧
    MaskString (Char.ofNat 42) 4611686018427387904 4611686018427387904
        ⟨[], "card", .str "1234567890"⟩ ≠
      some (.str (String.mk (List.replicate 10 (Char.ofNat 42)))) := by
  have h1 : MaskString (Char.ofNat 42) 4611686018427387904 4611686018427387904
      ⟨[], "card", .str "1234567890"⟩ = none := rfl
  refine ⟨h1, ?_⟩
  rw [h1]
  simp

/-- Claim C5, amended: `MaskString` with the keep counts clamped at zero
(via `Int.toNat`) and a non-zero mask rune, on inputs where the 64-bit
arithmetic does not wrap — the clamped counts sum below `2 ^ 63` and the
string, like every Go string, has fewer than `2 ^ 63` code points: when
the kept counts cover the code-point length the whole string becomes
that many mask characters; otherwise the first `keepStart` and last
`keepEnd` code points survive verbatim around
`length - keepStart - keepEnd` mask characters.  When the clamped counts
are representable but their sum reaches `2 ^ 63`, the 64-bit sum wraps
negative and the call panics instead. -/
theorem maskString_formula :
    (∀ (mask : Char) (ks ke : Int) (p : List String) (key v : String),
      mask ≠ Char.ofNat 0 →
      ks.toNat + ke.toNat < 2 ^ 63 →
      v.data.length < 2 ^ 63 →
      MaskString mask ks ke ⟨p, key, .str v⟩ =
        some (.str (if v.data.length ≤ ks.toNat + ke.toNat
              then String.mk (List.replicate v.data.length mask)
              else String.mk (v.data.take ks.toNat ++
                List.replicate (v.data.length - ks.toNat - ke.toNat) mask ++
                v.data.drop (v.data.length - ke.toNat))))) ∧
    (∀ (mask : Char) (ks ke : Int) (p : List String) (key v : String),
      v ≠ "" → ks < 2 ^ 63 → ke < 2 ^ 63 →
      2 ^ 63 ≤ ks.toNat + ke.toNat →
      v.data.length < 2 ^ 63 →
      MaskString mask ks ke ⟨p, key, .str v⟩ = none) := by
  constructor
  · intro mask ks ke p key v hmask hsum hlen
    by_cases hv : v = ""
    · subst hv
      have h0 : ("" : String).data.length = 0 := rfl
      rw [if_pos (by rw [h0]; exact Nat.zero_le _)]
      rfl
    · have hksC : (if ks < 0 then (0 : Int) else ks) = (ks.toNat : Int) := by
        by_cases h : ks < 0 <;> simp [h] <;> omega
      have hkeC : (if ke < 0 then (0 : Int) else ke) = (ke.toNat : Int) := by
        by_cases h : ke < 0 <;> simp [h] <;> omega
      have hdne : ¬(v.data.length = 0) := by
        intro h0
        apply hv
        rw [← string_mk_data v, List.length_eq_zero.mp h0]
      simp only [MaskString, if_neg hmask, hksC, hkeC, goSprint, if_neg hv,
        if_neg hdne, Int.toNat_natCast]
      have hw1 : goIntWrap ((ks.toNat : Int) + (ke.toNat : Int)) =
          (ks.toNat : Int) + (ke.toNat : Int) := by
        unfold goIntWrap
        omega
      rw [hw1]
      have hiff : ((v.data.length : Int) ≤ (ks.toNat : Int) + (ke.toNat : Int)) ↔
          (v.data.length ≤ ks.toNat + ke.toNat) := by omega
      by_cases hc : v.data.length ≤ ks.toNat + ke.toNat
      · rw [if_pos (hiff.mpr hc), if_pos hc, goRepeat_singleton]
      · rw [if_neg (fun hh => hc (hiff.mp hh)),
          if_neg (by omega :
            ¬(0 < (ks.toNat : Int) ∧ (v.data.length : Int) < (ks.toNat : Int)))]
        have hw2 : goIntWrap ((v.data.length : Int) - (ks.toNat : Int)) =
            (v.data.length : Int) - (ks.toNat : Int) := by
          unfold goIntWrap
          omega
        rw [hw2]
        have hw3 : goIntWrap ((v.data.length : Int) - (ks.toNat : Int) -
            (ke.toNat : Int)) =
            (v.data.length : Int) - (ks.toNat : Int) - (ke.toNat : Int) := by
          unfold goIntWrap
          omega
        rw [hw3,
          if_neg (by omega :
            ¬((v.data.length : Int) - (ks.toNat : Int) - (ke.toNat : Int) < 0))]
        have hw4 : goIntWrap ((v.data.length : Int) - (ke.toNat : Int)) =
            (v.data.length : Int) - (ke.toNat : Int) := by
          unfold goIntWrap
          omega
        rw [hw4,
          if_neg (by omega :
            ¬(0 < (ke.toNat : Int) ∧ (v.data.length : Int) - (ke.toNat : Int) < 0)),
          if_neg hc]
        have ht1 : ((v.data.length : Int) - (ks.toNat : Int) -
            (ke.toNat : Int)).toNat = v.data.length - ks.toNat - ke.toNat := by
          omega
        have ht2 : ((v.data.length : Int) - (ke.toNat : Int)).toNat =
            v.data.length - ke.toNat := by omega
        rw [ht1, ht2, mask_build mask ks.toNat ke.toNat v.data]
  · intro mask ks ke p key v hv hks hke hsum hlen
    have hksC : (if ks < 0 then (0 : Int) else ks) = (ks.toNat : Int) := by
      by_cases h : ks < 0 <;> simp [h] <;> omega
    have hkeC : (if ke < 0 then (0 : Int) else ke) = (ke.toNat : Int) := by
      by_cases h : ke < 0 <;> simp [h] <;> omega
    have hdne : ¬(v.data.length = 0) := by
      intro h0
      apply hv
      rw [← string_mk_data v, List.length_eq_zero.mp h0]
    have hkn : ks.toNat < 2 ^ 63 := by omega
    have hken : ke.toNat < 2 ^ 63 := by omega
    simp only [MaskString, hksC, hkeC, goSprint, if_neg hv, if_neg hdne,
      Int.toNat_natCast]
    have hw1 : goIntWrap ((ks.toNat : Int) + (ke.toNat : Int)) < 0 := by
      unfold goIntWrap
      omega
    rw [if_neg (by omega :
      ¬((v.data.length : Int) ≤ goIntWrap ((ks.toNat : Int) + (ke.toNat : Int))))]
    by_cases hbig : (v.data.length : Int) < (ks.toNat : Int)
    · rw [if_pos ⟨by omega, hbig⟩]
    · rw [if_neg (fun hcon => hbig hcon.2)]
      have hw2 : goIntWrap ((v.data.length : Int) - (ks.toNat : Int)) =
          (v.data.length : Int) - (ks.toNat : Int) := by
        unfold goIntWrap
        omega
      rw [hw2]
      have hw3 : goIntWrap ((v.data.length : Int) - (ks.toNat : Int) -
          (ke.toNat : Int)) =
          (v.data.length : Int) - (ks.toNat : Int) - (ke.toNat : Int) := by
        unfold goIntWrap
        omega
      rw [hw3,
        if_pos (by omega :
          (v.data.length : Int) - (ks.toNat : Int) - (ke.toNat : Int) < 0)]

/-- Witness for C5: the specification example — masking all but the last
four code points of the ten-digit string yields six masks and the kept
tail (no wrap occurs at these small counts). -/
theorem maskString_formula_witness :
    MaskString (Char.ofNat 42) 0 4 ⟨[], "card", .str "1234567890"⟩ =
      some (.str "******7890") := by
  rw [maskString_formula.1 (Char.ofNat 42) 0 4 [] "card" "1234567890"
    (by decide) (by omega) (by decide)]
  rfl

/-- Claim C6: `ScrubJSON` on an empty-or-all-whitespace input returns a
copy of the input with no error; otherwise (with a non-nil receiver) a
failing decode yields no bytes and a decode error, a successful decode
followed by a successful encode yields exactly the re-encoded scrubbed
bytes with no error, and no call ever returns both output bytes and an
error. -/
theorem scrubJSON_boundary (dec : List Char → Except String GoValue)
    (enc : GoValue → Except String (List Char))
    (s : Option Scrubber) (data : List Char) :
    (goTrimSpaceChars data = [] → ScrubJSON dec enc s data = (some data, none)) ∧
    (∀ sc e, s = some sc → goTrimSpaceChars data ≠ [] →
      dec (goTrimSpaceChars data) = .error e →
      (ScrubJSON dec enc s data).1 = none ∧
      (ScrubJSON dec enc s data).2.isSome = true) ∧
    (∀ sc payload result, s = some sc → goTrimSpaceChars data ≠ [] →
      dec (goTrimSpaceChars data) = .ok payload →
      enc (scrubValue sc payload []) = .ok result →
      ScrubJSON dec enc s data = (some result, none)) ∧
    ¬((ScrubJSON dec enc s data).1.isSome = true ∧
      (ScrubJSON dec enc s data).2.isSome = true) := by
  refine ⟨?_, ?_, ?_, ?_⟩
  · intro h
    cases s with
    | none => rfl
    | some sc => simp [ScrubJSON, h]
  · intro sc e hs hne hdec
    subst hs
    have hemp : (goTrimSpaceChars data).isEmpty = false := by
      cases hgt : goTrimSpaceChars data with
      | nil => exact absurd hgt hne
      | cons a l => rfl
    simp only [ScrubJSON, hemp, Bool.false_eq_true, if_false, hdec]
    exact ⟨trivial, rfl⟩
  · intro sc payload result hs hne hdec henc
    subst hs
    have hemp : (goTrimSpaceChars data).isEmpty = false := by
      cases hgt : goTrimSpaceChars data with
      | nil => exact absurd hgt hne
      | cons a l => rfl
    simp only [ScrubJSON, hemp, Bool.false_eq_true, if_false, hdec, henc]
  · cases s with
    | none =>
      rintro ⟨h1, h2⟩
      cases h2
    | some sc =>
      simp only [ScrubJSON]
      by_cases hemp : (goTrimSpaceChars data).isEmpty = true
      · simp [hemp]
      · have hemp' : (goTrimSpaceChars data).isEmpty = false := by
          simpa using hemp
        simp only [hemp', Bool.false_eq_true, if_false]
        cases hdec : dec (goTrimSpaceChars data) with
        | error e => simp
        | ok payload =>
          cases henc : enc (scrubValue sc payload []) with
          | error e => simp [henc]
          | ok result => simp [henc]

/-- Witness for C6: a decoder that rejects the input makes `ScrubJSON`
return no bytes and an error; an all-whitespace input is returned as is
with no error. -/
theorem scrubJSON_boundary_witness :
    (ScrubJSON (fun _ => Except.error "bad") (fun _ => Except.ok [])
      (some (NewScrubber [])) (String.data "x")).1 = none ∧
    (ScrubJSON (fun _ => Except.error "bad") (fun _ => Except.ok [])
      (some (NewScrubber [])) (String.data "x")).2.isSome = true ∧
    ScrubJSON (fun _ => Except.error "bad") (fun _ => Except.ok [])
      (some (NewScrubber [])) (String.data "   ") =
      (some (String.data "   "), none) := by
  refine ⟨?_, ?_, ?_⟩
  · exact ((scrubJSON_boundary (fun _ => Except.error "bad") (fun _ => Except.ok [])
      (some (NewScrubber [])) (String.data "x")).2.1 (NewScrubber []) "bad" rfl
      (by decide) rfl).1
  · exact ((scrubJSON_boundary (fun _ => Except.error "bad") (fun _ => Except.ok [])
      (some (NewScrubber [])) (String.data "x")).2.1 (NewScrubber []) "bad" rfl
      (by decide) rfl).2
  · exact (scrubJSON_boundary (fun _ => Except.error "bad") (fun _ => Except.ok [])
      (some (NewScrubber [])) (String.data "   ")).1 (by decide)

/-- `ScrubStringMapFn` on empty contents yields empty contents. -/
theorem scrubStringMapFn_nil (s : Option Scrubber) : ScrubStringMapFn s [] = [] := by
  cases s <;> rfl

/-- Allocation grows the heap by one cell. -/
theorem MapHeap.alloc_length (h : MapHeap) (m : List (String × String)) :
    (h.alloc m).2.cells.length = h.cells.length + 1 := by
  simp [MapHeap.alloc]

/-- Mapping the identity function. -/
theorem list_map_self {α : Type} (l : List α) : l.map (fun a => a) = l := by
  induction l with
  | nil => rfl
  | cons a t ih => simp [ih]

/-- An empty (or nil) input map makes `ScrubStringMap` return the Go nil
map and leave the heap untouched. -/
theorem scrubStringMapH_empty (s : Option Scrubber) (h : MapHeap) (r : MapRef)
    (he : h.get r = []) : ScrubStringMapH s h r = (none, h) := by
  cases s with
  | none =>
    simp only [ScrubStringMapH, cloneTagsH, he]
    rfl
  | some sc =>
    simp only [ScrubStringMapH, cloneTagsH, he]
    rfl

/-- On non-empty input `cloneTags` allocates a fresh copy. -/
theorem cloneTagsH_nonempty (h : MapHeap) (r : MapRef) (hne : h.get r ≠ []) :
    cloneTagsH h r = h.alloc (h.get r) := by
  have hemp : (h.get r).isEmpty = false := by
    cases hgt : h.get r with
    | nil => exact absurd hgt hne
    | cons kv l => rfl
  simp only [cloneTagsH, hemp, Bool.false_eq_true, if_false, list_map_self]

/-- With a nil receiver and a non-empty input, `ScrubStringMap` returns
the freshly allocated clone. -/
theorem scrubStringMapH_nonempty_none (h : MapHeap) (r : MapRef)
    (hne : h.get r ≠ []) : ScrubStringMapH none h r = h.alloc (h.get r) := by
  simp only [ScrubStringMapH, cloneTagsH_nonempty h r hne]

/-- With a non-nil receiver and a non-empty input, `ScrubStringMap`
allocates the clone and then a second fresh map holding the scrubbed
contents. -/
theorem scrubStringMapH_nonempty_some (sc : Scrubber) (h : MapHeap) (r : MapRef)
    (hne : h.get r ≠ []) :
    ScrubStringMapH (some sc) h r =
      (h.alloc (h.get r)).2.alloc (ScrubStringMapFn (some sc) (h.get r)) := by
  have hemp : (h.get r).isEmpty = false := by
    cases hgt : h.get r with
    | nil => exact absurd hgt hne
    | cons kv l => rfl
  simp only [ScrubStringMapH, cloneTagsH_nonempty h r hne,
    MapHeap.get_alloc_self, hemp, Bool.false_eq_true, if_false,
    ScrubStringMapFn, cloneTags_eq, scrubValue]

/-- Claim C2: `ScrubStringMap` never aliases its input.  Over the map
heap: the returned reference is nil or a freshly allocated cell, never
the input cell; the call leaves the input contents untouched; the
returned cell holds exactly the scrubbed copy of the input contents;
and writes through the input reference after the call never change the
returned map, and vice versa. -/
theorem scrubStringMap_fresh_unaliased (s : Option Scrubber) (h : MapHeap)
    (r : MapRef) (hvalid : ∀ i, r = some i → i < h.cells.length) :
    (∀ j, (ScrubStringMapH s h r).1 = some j → h.cells.length ≤ j) ∧
    (∀ i, r = some i → (ScrubStringMapH s h r).1 ≠ some i) ∧
    ((ScrubStringMapH s h r).2.get r = h.get r) ∧
    ((ScrubStringMapH s h r).2.get (ScrubStringMapH s h r).1 =
      ScrubStringMapFn s (h.get r)) ∧
    (∀ m, ((ScrubStringMapH s h r).2.write r m).get (ScrubStringMapH s h r).1 =
      (ScrubStringMapH s h r).2.get (ScrubStringMapH s h r).1) ∧
    (∀ m, ((ScrubStringMapH s h r).2.write (ScrubStringMapH s h r).1 m).get r =
      (ScrubStringMapH s h r).2.get r) := by
  by_cases hemp : h.get r = []
  · rw [scrubStringMapH_empty s h r hemp]
    refine ⟨?_, ?_, rfl, ?_, ?_, ?_⟩
    · intro j hj
      cases hj
    · intro i _ hji
      cases hji
    · rw [hemp, scrubStringMapFn_nil]
      rfl
    · intro m
      cases r with
      | none => rfl
      | some i => rfl
    · intro m
      rfl
  · have hfresh : ∀ (h1 : MapHeap) (m : List (String × String)),
        h.cells.length ≤ h1.cells.length →
        ∀ j, (h1.alloc m).1 = some j → h.cells.length ≤ j := by
      intro h1 m hle j hj
      simp only [MapHeap.alloc] at hj
      obtain rfl := Option.some_injective _ hj.symm
      omega
    cases s with
    | none =>
      rw [scrubStringMapH_nonempty_none h r hemp]
      have hL : (h.alloc (h.get r)).1 = some h.cells.length := rfl
      refine ⟨hfresh h (h.get r) (Nat.le_refl _), ?_, ?_, ?_, ?_, ?_⟩
      · intro i hri hji
        have hi := hvalid i hri
        rw [hL] at hji
        obtain rfl := Option.some_injective _ hji.symm
        omega
      · cases r with
        | none => rfl
        | some i => exact MapHeap.get_alloc_lt h (h.get (some i)) i (hvalid i rfl)
      · rw [MapHeap.get_alloc_self]
        simp only [ScrubStringMapFn, cloneTags_eq]
      · intro m
        cases r with
        | none => rfl
        | some i =>
          rw [hL]
          exact MapHeap.get_write_ne _ i h.cells.length m
            (by have := hvalid i rfl; omega)
      · intro m
        cases r with
        | none => rfl
        | some i =>
          rw [hL]
          exact MapHeap.get_write_ne _ h.cells.length i m
            (by have := hvalid i rfl; omega)
    | some sc =>
      rw [scrubStringMapH_nonempty_some sc h r hemp]
      have hL1 : ((h.alloc (h.get r)).2.alloc
          (ScrubStringMapFn (some sc) (h.get r))).1 = some (h.cells.length + 1) := by
        show some (h.alloc (h.get r)).2.cells.length = _
        rw [MapHeap.alloc_length]
      refine ⟨?_, ?_, ?_, ?_, ?_, ?_⟩
      · intro j hj
        rw [hL1] at hj
        obtain rfl := Option.some_injective _ hj.symm
        omega
      · intro i hri hji
        have hi := hvalid i hri
        rw [hL1] at hji
        obtain rfl := Option.some_injective _ hji.symm
        omega
      · cases r with
        | none => rfl
        | some i =>
          have hi := hvalid i rfl
          rw [MapHeap.get_alloc_lt _ _ i (by rw [MapHeap.alloc_length]; omega),
            MapHeap.get_alloc_lt h (h.get (some i)) i hi]
      · rw [hL1]
        have : h.cells.length + 1 = (h.alloc (h.get r)).2.cells.length := by
          rw [MapHeap.alloc_length]
        rw [this]
        exact MapHeap.get_alloc_self _ _
      · intro m
        cases r with
        | none => rfl
        | some i =>
          rw [hL1]
          exact MapHeap.get_write_ne _ i (h.cells.length + 1) m
            (by have := hvalid i rfl; omega)
      · intro m
        cases r with
        | none => rfl
        | some i =>
          rw [hL1]
          exact MapHeap.get_write_ne _ (h.cells.length + 1) i m
            (by have := hvalid i rfl; omega)

/-- Witness for C2: scrubbing a one-cell heap holding `token ↦ abc`
returns a reference distinct from the input one and a fresh map with the
token redacted, and the input cell still holds its original contents. -/
theorem scrubStringMap_fresh_unaliased_witness :
    (ScrubStringMapH (some (NewScrubber [])) ⟨[[("token", "abc")]]⟩ (some 0)).1 ≠
      some 0 ∧
    (ScrubStringMapH (some (NewScrubber [])) ⟨[[("token", "abc")]]⟩
        (some 0)).2.get
      (ScrubStringMapH (some (NewScrubber [])) ⟨[[("token", "abc")]]⟩ (some 0)).1 =
      [("token", "[REDACTED]")] ∧
    (ScrubStringMapH (some (NewScrubber [])) ⟨[[("token", "abc")]]⟩
        (some 0)).2.get (some 0) = [("token", "abc")] := by
  have hth := scrubStringMap_fresh_unaliased (some (NewScrubber []))
    ⟨[[("token", "abc")]]⟩ (some 0)
    (by
      intro i hi
      obtain rfl := Option.some_injective _ hi.symm
      decide)
  refine ⟨hth.2.1 0 rfl, ?_, ?_⟩
  · rw [hth.2.2.2.1]
    rfl
  · rw [hth.2.2.1]
    rfl

end Recorder
